import Mathlib

/-!
Verification of the collaborativepermute learning engine.

The Go source (predictor.go) is shallowly embedded below.  Scalars are
modelled by exact rationals.  The external gauss dense-matrix library is
modelled concretely (flat row-major data plus a shape), except for the
singular value decomposition, which is an external collaborator and is
therefore passed in as an abstract function argument msvd; likewise the
transcendental functions math.Sqrt and math.Exp are passed in as abstract
arguments msqrt and mexp, and the uniform random variate of rand.Float64
is passed in as an argument r.
-/

/-- Model of a gauss.Array: a dense matrix stored row-major as flat data
together with its shape (rows = Shape[0], cols = Shape[1]). -/
structure GArray where
  rows : Nat
  cols : Nat
  data : List ℚ
deriving DecidableEq, Repr

/-- Model of gauss.Array.I(u, i): the cell at row u, column i, read from the
flat row-major data at index u * cols + i. -/
def GArray.I (A : GArray) (u i : Int) : ℚ :=
  A.data.getD (u * A.cols + i).toNat 0

/-- Model of gauss.Zero(rows, cols): a zero-filled matrix. -/
def gZero (rows cols : Nat) : GArray :=
  ⟨rows, cols, List.replicate (rows * cols) 0⟩

/-- Model of gauss.Sum(A, B): elementwise sum. -/
def gSum (A B : GArray) : GArray :=
  ⟨A.rows, A.cols, List.zipWith (fun a b => a + b) A.data B.data⟩

/-- Model of gauss.Scale(A, k): elementwise multiplication by the scalar k. -/
def gScale (A : GArray) (k : ℚ) : GArray :=
  ⟨A.rows, A.cols, A.data.map (fun a => a * k)⟩

/-- Model of gauss.Diagonal(d): the square matrix with d on the diagonal. -/
def gDiagonal (d : List ℚ) : GArray :=
  ⟨d.length, d.length,
    (List.range (d.length * d.length)).map (fun idx =>
      if idx / d.length = idx % d.length then d.getD (idx / d.length) 0 else 0)⟩

/-- Model of gauss.Product(A, B): the standard matrix product, of shape
A.rows times B.cols. -/
def gProduct (A B : GArray) : GArray :=
  ⟨A.rows, B.cols,
    (List.range (A.rows * B.cols)).map (fun idx =>
      ((List.range A.cols).map (fun k =>
        A.data.getD ((idx / B.cols) * A.cols + k) 0 *
        B.data.getD (k * B.cols + idx % B.cols) 0)).sum)⟩

/-- Model of gauss.Array.Transpose(). -/
def gTranspose (A : GArray) : GArray :=
  ⟨A.cols, A.rows,
    (List.range (A.cols * A.rows)).map (fun idx =>
      A.data.getD ((idx % A.rows) * A.cols + idx / A.rows) 0)⟩

/-- Struct Query of the source: a prompt to the user. -/
structure Query where
  User : Int
  Choices : List Int
  weight : ℚ
deriving DecidableEq, Repr

/-- Struct Engine of the source: belief matrices X (current), Xp (previous),
Z (momentum), the hyperparameters Nu (step size), Alpha (momentum
coefficient), Lambda (regularization strength), T (temperature), and the
History of answered queries. -/
structure Engine where
  X : GArray
  Xp : GArray
  Z : GArray
  Nu : ℚ
  Alpha : ℚ
  Lambda : ℚ
  T : ℚ
  History : List Query
deriving DecidableEq, Repr

/-- Model of NewEngine(users, choices). -/
def NewEngine (users choices : Nat) : Engine :=
  { X := gZero users choices
    Xp := gZero users choices
    Z := gZero users choices
    History := []
    Nu := 1
    Lambda := 0.04
    Alpha := 1
    T := 1 }

/-- Model of Engine.hingeLoss(samps): sums max(1 - diff, 0) over the samples
and divides by the number of samples. -/
def hingeLoss (X : GArray) (samps : List Query) : ℚ :=
  (samps.foldl
    (fun sum x =>
      sum + max (1 - (X.I x.User (x.Choices.getD 0 0) - X.I x.User (x.Choices.getD 1 0))) 0)
    0) / (samps.length : ℚ)

/-- Overwrite flat data cell i of a matrix (model of an assignment through
X.Data[i]). -/
def setCell (A : GArray) (i : Nat) (v : ℚ) : GArray :=
  ⟨A.rows, A.cols, A.data.set i v⟩

/-- Loop body sequence of Engine.gradientLoss: for each flat index, add
0.0001 to the cell of X, recompute the loss, then subtract 0.0001 from the
cell again.  The current (mutated) X is threaded through; the returned pair
is the list of gradient components and the final X. -/
def gradLoop (samps : List Query) (before : ℚ) : List Nat → GArray → List ℚ × GArray
  | [], X => ([], X)
  | i :: rest, X =>
    let X1 := setCell X i (X.data.getD i 0 + 0.0001)
    let g := (hingeLoss X1 samps - before) / 0.0001
    let X2 := setCell X1 i (X1.data.getD i 0 - 0.0001)
    let next := gradLoop samps before rest X2
    (g :: next.1, next.2)

/-- Model of Engine.gradientLoss(samps): the numerical gradient of the hinge
loss, computed by perturbing every flat cell of X in turn.  Returns the
gradient matrix together with the X left behind by the perturbation loop
(the source mutates p.X in place). -/
def gradientLoss (X : GArray) (samps : List Query) : GArray × GArray :=
  let before := hingeLoss X samps
  let res := gradLoop samps before (List.range (X.rows * X.cols)) X
  (⟨X.rows, X.cols, res.1⟩, res.2)

/-- Model of Engine.update(samps): the accelerated proximal-gradient step of
the source, with msqrt standing for math.Sqrt and msvd for gauss.SVD. -/
def update (msqrt : ℚ → ℚ) (msvd : GArray → GArray × GArray × GArray)
    (p : Engine) (samps : List Query) : Engine :=
  let alphaP := (1 + msqrt (1 + 4 * p.Alpha * p.Alpha)) / 2
  let gr := gradientLoss p.X samps
  let p1 : Engine := { p with X := gr.2 }
  let usv := msvd (gSum p1.Z (gScale gr.1 (-p1.Nu)))
  let Sdata := usv.2.1.data.map (fun s => max 0 (s - p1.Lambda))
  let Xp2 := p1.X
  let X2 := gProduct (gProduct usv.1 (gDiagonal Sdata)) (gTranspose usv.2.2)
  let Z2 := gSum X2 (gScale (gSum X2 (gScale Xp2 (-1))) ((p1.Alpha - 1) / alphaP))
  { p1 with Xp := Xp2, X := X2, Z := Z2, Alpha := alphaP }

/-- Model of Engine.Respond(prompt): validation checks in source order, then
append to History and run the update on the whole appended History.  The
returned pair is (error message if any, the engine state after the call);
on a validation error the source returns before mutating anything, so the
engine component is the unchanged input state. -/
def Respond (msqrt : ℚ → ℚ) (msvd : GArray → GArray × GArray × GArray)
    (p : Engine) (prompt : Query) : Option String × Engine :=
  if prompt.Choices.length ≠ 2 then
    (some "can only handle binary rankings", p)
  else if prompt.User < 0 ∨ (p.X.rows : Int) ≤ prompt.User then
    (some "must have 0 <= user < users", p)
  else if ∃ choice ∈ prompt.Choices, choice < 0 ∨ (p.X.cols : Int) ≤ choice then
    (some "must have 0 <= choice < choices", p)
  else
    let p1 : Engine := { p with History := p.History ++ [prompt] }
    (none, update msqrt msvd p1 p1.History)

/-- Candidate list built by Engine.Generate(user): for every user u kept by
the filter and every ordered pair (a, b) of distinct item indices, a Query
with weight mexp(-|X[u][a] - X[u][b]| / T), in loop order. -/
def genCandidates (mexp : ℚ → ℚ) (p : Engine) (user : Int) : List Query :=
  (List.range p.X.rows).flatMap (fun u =>
    if 0 ≤ user ∧ user ≠ (u : Int) then []
    else
      (List.range p.X.cols).flatMap (fun a =>
        (List.range p.X.cols).filterMap (fun b =>
          if a = b then none
          else
            some { User := (u : Int)
                   Choices := [(a : Int), (b : Int)]
                   weight := mexp (-|p.X.I (u : Int) (a : Int) - p.X.I (u : Int) (b : Int)| / p.T) })))

/-- Selection loop of Engine.Generate: walk the candidates subtracting each
weight from the offset; at the first candidate whose weight exceeds the
remaining offset, swap its two choices if the current estimate of the first
is below that of the second, and return it.  Falling off the end models the
panic of the source. -/
def walk (X : GArray) : ℚ → List Query → Option Query
  | _, [] => none
  | offset, opt :: rest =>
    if offset < opt.weight then
      some
        (if X.I opt.User (opt.Choices.getD 0 0) < X.I opt.User (opt.Choices.getD 1 0) then
          { opt with Choices := [opt.Choices.getD 1 0, opt.Choices.getD 0 0] }
        else opt)
    else walk X (offset - opt.weight) rest

/-- Model of Engine.Generate(user), with mexp standing for math.Exp and r
for the uniform variate rand.Float64() in [0, 1).  none models the panic
raised when the walk exhausts the candidates. -/
def Generate (mexp : ℚ → ℚ) (r : ℚ) (p : Engine) (user : Int) : Option Query :=
  let candidates := genCandidates mexp p user
  let sum := candidates.foldl (fun s q => s + q.weight) 0
  let offset := r * sum
  walk p.X offset candidates

/-- Stateful reading of Engine.Generate: the method has a receiver but
assigns none of its fields, so the post-call engine is the input engine. -/
def GenerateS (mexp : ℚ → ℚ) (r : ℚ) (p : Engine) (user : Int) : Engine × Option Query :=
  (p, Generate mexp r p user)

/-- Per-comparison hinge loss as the spec words it: max(0, 1 - (Current[u][a] - Current[u][b])). -/
def specPerLoss (X : GArray) (q : Query) : ℚ :=
  max 0 (1 - (X.I q.User (q.Choices.getD 0 0) - X.I q.User (q.Choices.getD 1 0)))

/-- Batch loss as the spec words it: the mean of the per-comparison hinge
losses over all comparisons in the list. -/
def specMeanLoss (X : GArray) (samps : List Query) : ℚ :=
  (samps.map (specPerLoss X)).sum / (samps.length : ℚ)

/-- Perturbation of a single flat cell by epsilon = 1e-4, as the spec words
it for the finite-difference gradient. -/
def bump (X : GArray) (i : Nat) : GArray :=
  setCell X i (X.data.getD i 0 + 0.0001)

/-- Perturbation of the single cell at row u, column i by epsilon = 1e-4. -/
def bumpCell (X : GArray) (u i : Nat) : GArray :=
  bump X (u * X.cols + i)

/-- Numerical finite-difference gradient as the spec words it: for every
cell, (perturbedLoss - baseLoss) / epsilon, on the unperturbed matrix. -/
def specGradient (X : GArray) (samps : List Query) : GArray :=
  ⟨X.rows, X.cols,
    (List.range (X.rows * X.cols)).map (fun i =>
      (specMeanLoss (bump X i) samps - specMeanLoss X samps) / 0.0001)⟩

/-- Elementwise matrix difference, used by the spec phrasing Momentum - stepSize·G. -/
def msub (A B : GArray) : GArray :=
  ⟨A.rows, A.cols, List.zipWith (fun a b => a - b) A.data B.data⟩

/-- Scalar multiple k·A, used by the spec phrasing of the update. -/
def smul (k : ℚ) (A : GArray) : GArray :=
  ⟨A.rows, A.cols, A.data.map (fun a => k * a)⟩

/-- Accelerated proximal-gradient step exactly as sequenced by the spec:
alphaNext, gradient of the batch loss over the whole History at Current,
svd of Momentum - stepSize·G, soft-threshold of the singular values,
Previous = old Current, Current = U·diag(S)·Vt, Nesterov extrapolation of
Momentum with the old alpha, and finally alpha = alphaNext. -/
def specStep (msqrt : ℚ → ℚ) (msvd : GArray → GArray × GArray × GArray)
    (p : Engine) : Engine :=
  let alphaNext := (1 + msqrt (1 + 4 * p.Alpha * p.Alpha)) / 2
  let G := specGradient p.X p.History
  let usv := msvd (msub p.Z (smul p.Nu G))
  let Sthr := usv.2.1.data.map (fun s => max 0 (s - p.Lambda))
  let Prev := p.X
  let Cur := gProduct (gProduct usv.1 (gDiagonal Sthr)) (gTranspose usv.2.2)
  let Mom := gSum Cur (smul ((p.Alpha - 1) / alphaNext) (msub Cur Prev))
  { X := Cur, Xp := Prev, Z := Mom, Nu := p.Nu, Alpha := alphaNext,
    Lambda := p.Lambda, T := p.T, History := p.History }

/-- Post-state of a successful Respond as the spec words it: append the
comparison to History, then run the accelerated proximal-gradient step on
the appended History. -/
def respondSpec (msqrt : ℚ → ℚ) (msvd : GArray → GArray × GArray × GArray)
    (p : Engine) (q : Query) : Engine :=
  specStep msqrt msvd { p with History := p.History ++ [q] }

/-- Dummy singular value decomposition used to instantiate the abstract
external svd collaborator in concrete witnesses. -/
def svdTriple : GArray → GArray × GArray × GArray := fun A => (A, A, A)

/-- Ordering step of Generate as the spec words it: the returned pair is
ordered so that the item with the currently-higher estimated score appears
first. -/
def specOrder (X : GArray) (q : Query) : Query :=
  if X.I q.User (q.Choices.getD 0 0) < X.I q.User (q.Choices.getD 1 0) then
    { q with Choices := [q.Choices.getD 1 0, q.Choices.getD 0 0] }
  else q

/-- Candidate enumeration as the spec words it: every ordered pair of
distinct items (a, b), for every user u when the filter is the negative
sentinel and only for u = f otherwise, each weighted
mexp(-|Current[u][a] - Current[u][b]| / temperature). -/
def specCandidates (mexp : ℚ → ℚ) (p : Engine) (f : Int) : List Query :=
  (List.range p.X.rows).flatMap (fun u =>
    if f < 0 ∨ f = (u : Int) then
      (List.range p.X.cols).flatMap (fun a =>
        (List.range p.X.cols).filterMap (fun b =>
          if a ≠ b then
            some { User := (u : Int)
                   Choices := [(a : Int), (b : Int)]
                   weight := mexp (-|p.X.I (u : Int) (a : Int) - p.X.I (u : Int) (b : Int)| / p.T) }
          else none))
    else [])

/-- Weighted selection as the spec words it: walk the candidate list
accumulating weights and return the first candidate whose cumulative weight
exceeds the threshold. -/
def specFirstExceed (thr : ℚ) : ℚ → List Query → Option Query
  | _, [] => none
  | acc, q :: rest =>
    if thr < acc + q.weight then some q else specFirstExceed thr (acc + q.weight) rest

/-- Concrete engine whose current estimate prefers item 1 for its single
user; used to exhibit the reordering Generate applies before returning. -/
def tilted : Engine :=
  { X := ⟨1, 2, [0, 1]⟩, Xp := gZero 1 2, Z := gZero 1 2,
    Nu := 1, Alpha := 1, Lambda := 0.04, T := 1, History := [] }

/-- Folding addition of a projected value equals adding the sum of the
projections. -/
theorem foldl_add_map (f : Query → ℚ) :
    ∀ (l : List Query) (s : ℚ), l.foldl (fun s q => s + f q) s = s + (l.map f).sum := by
  intro l
  induction l with
  | nil => intro s; simp
  | cons q t ih =>
    intro s
    simp only [List.foldl_cons, List.map_cons, List.sum_cons, ih]
    ring

/-- The loss computed by the source equals the mean loss as the spec words it. -/
theorem hingeLoss_eq_specMeanLoss (X : GArray) (samps : List Query) :
    hingeLoss X samps = specMeanLoss X samps := by
  unfold hingeLoss specMeanLoss
  rw [show (fun sum x =>
      sum + max (1 - (X.I x.User (x.Choices.getD 0 0) - X.I x.User (x.Choices.getD 1 0))) 0) =
      (fun sum x => sum + specPerLoss X x) from by
    funext s q
    rw [specPerLoss, max_comm]]
  rw [foldl_add_map (specPerLoss X) samps 0, zero_add]

/-- Setting a cell to its bumped value and then subtracting the bump again
restores the original data list. -/
theorem set_bump_restore (l : List ℚ) (i : Nat) (e : ℚ) :
    (l.set i (l.getD i 0 + e)).set i ((l.set i (l.getD i 0 + e)).getD i 0 - e) = l := by
  induction l generalizing i with
  | nil => simp
  | cons a t ih =>
    cases i with
    | zero => simp
    | succ n =>
      simp only [List.set_cons_succ, List.getD_cons_succ, List.cons.injEq, true_and]
      exact ih n

/-- The perturbation loop of gradientLoss computes, for each listed flat
index, the finite difference of the loss against the supplied base value,
and leaves the matrix it threads exactly as it received it. -/
theorem gradLoop_eq (samps : List Query) (before : ℚ) :
    ∀ (idxs : List Nat) (X : GArray),
      gradLoop samps before idxs X =
        ((idxs.map (fun i => (hingeLoss (bump X i) samps - before) / 0.0001)), X) := by
  intro idxs
  induction idxs with
  | nil => intro X; rfl
  | cons i rest ih =>
    intro X
    have hres : setCell (bump X i) i ((bump X i).data.getD i 0 - 0.0001) = X := by
      unfold bump setCell
      simp only
      rw [set_bump_restore]
    simp only [gradLoop, bump, setCell] at hres ⊢
    rw [hres, ih X]
    simp [bump, setCell]

/-- The gradient matrix computed by the source: each flat cell holds the
finite difference of the loss after bumping that cell of the original X. -/
theorem gradientLoss_fst (X : GArray) (samps : List Query) :
    (gradientLoss X samps).1 =
      ⟨X.rows, X.cols,
        (List.range (X.rows * X.cols)).map (fun i =>
          (hingeLoss (bump X i) samps - hingeLoss X samps) / 0.0001)⟩ := by
  simp only [gradientLoss, gradLoop_eq]

/-- The perturbation loop restores every cell, so gradientLoss hands back
the belief matrix unchanged. -/
theorem gradientLoss_snd (X : GArray) (samps : List Query) :
    (gradientLoss X samps).2 = X := by
  simp only [gradientLoss, gradLoop_eq]

/-- Pointwise-equal binary functions give equal zipWith results. -/
theorem zipWith_ext (f g : ℚ → ℚ → ℚ) (h : ∀ a b, f a b = g a b) (l1 l2 : List ℚ) :
    List.zipWith f l1 l2 = List.zipWith g l1 l2 := by
  have hfg : f = g := by funext a b; exact h a b
  rw [hfg]

/-- The loss of the source and the mean loss of the spec are the same function. -/
theorem hingeLoss_funext : hingeLoss = specMeanLoss := by
  funext X s
  exact hingeLoss_eq_specMeanLoss X s

/-- The gradient matrix of the source equals the spec finite-difference
gradient of the mean batch loss. -/
theorem gradientLoss_eq_specGradient (X : GArray) (samps : List Query) :
    (gradientLoss X samps).1 = specGradient X samps := by
  rw [gradientLoss_fst, hingeLoss_funext]
  rfl

/-- Adding the (-k)-scaled matrix, as the source does, is subtracting the
k-scaled matrix, as the spec words it. -/
theorem gSum_gScale_neg (A B : GArray) (k : ℚ) :
    gSum A (gScale B (-k)) = msub A (smul k B) := by
  unfold gSum gScale msub smul
  simp only [List.zipWith_map_right, GArray.mk.injEq, true_and]
  exact zipWith_ext _ _ (fun a b => by ring) A.data B.data

/-- Scaling the difference Current - 1·Previous by c on the right, as the
source builds it, equals the spec phrasing c·(Current - Previous). -/
theorem gScale_msub_smul (A B : GArray) (c : ℚ) :
    gScale (msub A (smul 1 B)) c = smul c (msub A B) := by
  unfold gScale msub smul
  simp only [List.zipWith_map_right, List.map_zipWith, GArray.mk.injEq, true_and]
  exact zipWith_ext _ _ (fun a b => by ring) A.data B.data

/-- The update of the source, run on the engine History, is exactly the
spec-sequenced accelerated proximal-gradient step. -/
theorem update_eq_specStep (msqrt : ℚ → ℚ) (msvd : GArray → GArray × GArray × GArray)
    (p : Engine) : update msqrt msvd p p.History = specStep msqrt msvd p := by
  unfold update specStep
  simp only [gradientLoss_eq_specGradient, gradientLoss_snd, gSum_gScale_neg, gScale_msub_smul]

/-- The update step never touches the History field. -/
theorem update_History (msqrt : ℚ → ℚ) (msvd : GArray → GArray × GArray × GArray)
    (p : Engine) (samps : List Query) : (update msqrt msvd p samps).History = p.History := by
  simp only [update]

/-- C1: for every successful call Respond(q), the post-state is exactly the
spec-sequenced result: append q to History, compute alphaNext, take the
numerical gradient of the batch hinge loss over the whole appended History
at Current, svd of Momentum minus stepSize times the gradient, soft-threshold
the singular values, set Previous to the old Current, rebuild Current as
U·diag(S)·Vt, extrapolate Momentum with the old alpha and alphaNext, and
finally set alpha to alphaNext. -/
theorem claim_C1_respond_is_fista_sequence (msqrt : ℚ → ℚ)
    (msvd : GArray → GArray × GArray × GArray) (p : Engine) (q : Query) (p2 : Engine)
    (h : Respond msqrt msvd p q = (none, p2)) :
    p2 = respondSpec msqrt msvd p q := by
  unfold Respond at h
  split_ifs at h
  · exact absurd (congrArg Prod.fst h) (by simp)
  · exact absurd (congrArg Prod.fst h) (by simp)
  · exact absurd (congrArg Prod.fst h) (by simp)
  · have h2 : update msqrt msvd { p with History := p.History ++ [q] }
        ({ p with History := p.History ++ [q] } : Engine).History = p2 :=
      congrArg Prod.snd h
    rw [← h2, respondSpec]
    exact update_eq_specStep msqrt msvd _

/-- Witness for C1 at a concrete engine, query and svd instance. -/
theorem claim_C1_witness :
    Respond (fun x => x) svdTriple (NewEngine 1 2) ⟨0, [0, 1], 0⟩ =
      (none, (Respond (fun x => x) svdTriple (NewEngine 1 2) ⟨0, [0, 1], 0⟩).2) ∧
    (Respond (fun x => x) svdTriple (NewEngine 1 2) ⟨0, [0, 1], 0⟩).2 =
      respondSpec (fun x => x) svdTriple (NewEngine 1 2) ⟨0, [0, 1], 0⟩ :=
  ⟨rfl, claim_C1_respond_is_fista_sequence (fun x => x) svdTriple (NewEngine 1 2)
    ⟨0, [0, 1], 0⟩ _ rfl⟩

/-- C2: a comparison without exactly two items, or with an out-of-range user
or item, makes Respond return a validation error and leaves the engine state
(Current, Previous, Momentum, History) completely unchanged. -/
theorem claim_C2_respond_validation_no_mutation (msqrt : ℚ → ℚ)
    (msvd : GArray → GArray × GArray × GArray) (p : Engine) (q : Query)
    (h : q.Choices.length ≠ 2 ∨ q.User < 0 ∨ (p.X.rows : Int) ≤ q.User ∨
      ∃ c ∈ q.Choices, c < 0 ∨ (p.X.cols : Int) ≤ c) :
    (Respond msqrt msvd p q).1 ≠ none ∧ (Respond msqrt msvd p q).2 = p ∧
    (Respond msqrt msvd p q).2.X = p.X ∧ (Respond msqrt msvd p q).2.Xp = p.Xp ∧
    (Respond msqrt msvd p q).2.Z = p.Z ∧ (Respond msqrt msvd p q).2.History = p.History := by
  unfold Respond
  split_ifs with h1 h2 h3
  · exact ⟨by simp, rfl, rfl, rfl, rfl, rfl⟩
  · exact ⟨by simp, rfl, rfl, rfl, rfl, rfl⟩
  · exact ⟨by simp, rfl, rfl, rfl, rfl, rfl⟩
  · exfalso
    push_neg at h1 h2 h3
    rcases h with h | h | h | ⟨c, hc, hbad⟩
    · exact h h1
    · exact absurd h (not_lt.mpr h2.1)
    · exact absurd h (not_le.mpr h2.2)
    · rcases hbad with hb | hb
      · exact absurd hb (not_lt.mpr (h3 c hc).1)
      · exact absurd hb (not_le.mpr (h3 c hc).2)

/-- Witness for C2 at a concrete malformed query (no items at all). -/
theorem claim_C2_witness :
    ((⟨0, [], 0⟩ : Query).Choices.length ≠ 2 ∨ (⟨0, [], 0⟩ : Query).User < 0 ∨
      ((NewEngine 1 2).X.rows : Int) ≤ (⟨0, [], 0⟩ : Query).User ∨
      ∃ c ∈ (⟨0, [], 0⟩ : Query).Choices, c < 0 ∨ ((NewEngine 1 2).X.cols : Int) ≤ c) ∧
    ((Respond (fun x => x) svdTriple (NewEngine 1 2) ⟨0, [], 0⟩).1 ≠ none ∧
      (Respond (fun x => x) svdTriple (NewEngine 1 2) ⟨0, [], 0⟩).2 = NewEngine 1 2 ∧
      (Respond (fun x => x) svdTriple (NewEngine 1 2) ⟨0, [], 0⟩).2.X = (NewEngine 1 2).X ∧
      (Respond (fun x => x) svdTriple (NewEngine 1 2) ⟨0, [], 0⟩).2.Xp = (NewEngine 1 2).Xp ∧
      (Respond (fun x => x) svdTriple (NewEngine 1 2) ⟨0, [], 0⟩).2.Z = (NewEngine 1 2).Z ∧
      (Respond (fun x => x) svdTriple (NewEngine 1 2) ⟨0, [], 0⟩).2.History =
        (NewEngine 1 2).History) :=
  ⟨Or.inl (by decide),
    claim_C2_respond_validation_no_mutation (fun x => x) svdTriple (NewEngine 1 2)
      ⟨0, [], 0⟩ (Or.inl (by decide))⟩

/-- C3: the batch loss is the mean of max(0, 1 - (Current[u][a] - Current[u][b]))
over the comparisons, and each gradient cell is the finite difference
(perturbed loss minus base loss) divided by epsilon = 1e-4. -/
theorem claim_C3_loss_and_gradient (X : GArray) (samps : List Query) (u i : Nat)
    (hs : samps ≠ []) (hu : u < X.rows) (hi : i < X.cols) :
    hingeLoss X samps = specMeanLoss X samps ∧
    (gradientLoss X samps).1.I (u : Int) (i : Int) =
      (specMeanLoss (bumpCell X u i) samps - specMeanLoss X samps) / 0.0001 := by
  refine ⟨hingeLoss_eq_specMeanLoss X samps, ?_⟩
  rw [gradientLoss_fst]
  unfold GArray.I bumpCell
  simp only
  have hidx : (((u : Int)) * ((X.cols : Nat) : Int) + (i : Int)).toNat = u * X.cols + i := by
    rw [← Nat.cast_mul, ← Nat.cast_add, Int.toNat_natCast]
  rw [hidx]
  have hlt : u * X.cols + i < X.rows * X.cols := by
    calc u * X.cols + i < u * X.cols + X.cols := by omega
    _ = (u + 1) * X.cols := by ring
    _ ≤ X.rows * X.cols := Nat.mul_le_mul_right _ hu
  rw [List.getD_eq_getElem?_getD, List.getElem?_map, List.getElem?_range hlt]
  simp only [Option.map_some', Option.getD_some]
  rw [hingeLoss_funext]

/-- Witness for C3 at a concrete matrix, batch and cell. -/
theorem claim_C3_witness :
    ([(⟨0, [0, 1], 0⟩ : Query)] ≠ ([] : List Query)) ∧ 0 < (gZero 1 2).rows ∧
    0 < (gZero 1 2).cols ∧
    (hingeLoss (gZero 1 2) [⟨0, [0, 1], 0⟩] = specMeanLoss (gZero 1 2) [⟨0, [0, 1], 0⟩] ∧
      (gradientLoss (gZero 1 2) [⟨0, [0, 1], 0⟩]).1.I 0 0 =
        (specMeanLoss (bumpCell (gZero 1 2) 0 0) [⟨0, [0, 1], 0⟩] -
          specMeanLoss (gZero 1 2) [⟨0, [0, 1], 0⟩]) / 0.0001) :=
  ⟨by simp, by decide, by decide,
    claim_C3_loss_and_gradient (gZero 1 2) [⟨0, [0, 1], 0⟩] 0 0 (by simp) (by decide) (by decide)⟩

/-- C5: the numerical gradient computation hands the belief matrix back
exactly as it found it: every perturbation is undone. -/
theorem claim_C5_gradient_preserves_current (X : GArray) (samps : List Query) :
    (gradientLoss X samps).2 = X :=
  gradientLoss_snd X samps

/-- C10: a successful Respond appends the comparison to History before the
update runs, so the batch every loss evaluation divides by is non-empty and
the divisor is nonzero. -/
theorem claim_C10_batch_nonempty (msqrt : ℚ → ℚ)
    (msvd : GArray → GArray × GArray × GArray) (p : Engine) (q : Query) (p2 : Engine)
    (h : Respond msqrt msvd p q = (none, p2)) :
    p2.History = p.History ++ [q] ∧ p2.History ≠ [] ∧ ((p2.History.length : ℚ) ≠ 0) ∧
    p2 = update msqrt msvd { p with History := p.History ++ [q] } (p.History ++ [q]) := by
  unfold Respond at h
  split_ifs at h
  · exact absurd (congrArg Prod.fst h) (by simp)
  · exact absurd (congrArg Prod.fst h) (by simp)
  · exact absurd (congrArg Prod.fst h) (by simp)
  · have h2 : update msqrt msvd { p with History := p.History ++ [q] }
        (p.History ++ [q]) = p2 := congrArg Prod.snd h
    have hh : p2.History = p.History ++ [q] := by
      rw [← h2, update_History]
    refine ⟨hh, ?_, ?_, h2.symm⟩
    · rw [hh]; simp
    · rw [hh]
      have : (p.History ++ [q]).length = p.History.length + 1 := by simp
      rw [this]
      exact_mod_cast Nat.succ_ne_zero p.History.length

/-- Witness for C10 at a concrete engine and query. -/
theorem claim_C10_witness :
    Respond (fun x => x) svdTriple (NewEngine 1 2) ⟨0, [1, 0], 0⟩ =
      (none, (Respond (fun x => x) svdTriple (NewEngine 1 2) ⟨0, [1, 0], 0⟩).2) ∧
    ((Respond (fun x => x) svdTriple (NewEngine 1 2) ⟨0, [1, 0], 0⟩).2.History =
        (NewEngine 1 2).History ++ [⟨0, [1, 0], 0⟩] ∧
      (Respond (fun x => x) svdTriple (NewEngine 1 2) ⟨0, [1, 0], 0⟩).2.History ≠ [] ∧
      (((Respond (fun x => x) svdTriple (NewEngine 1 2) ⟨0, [1, 0], 0⟩).2.History.length : ℚ) ≠ 0) ∧
      (Respond (fun x => x) svdTriple (NewEngine 1 2) ⟨0, [1, 0], 0⟩).2 =
        update (fun x => x) svdTriple
          { NewEngine 1 2 with History := (NewEngine 1 2).History ++ [⟨0, [1, 0], 0⟩] }
          ((NewEngine 1 2).History ++ [⟨0, [1, 0], 0⟩])) :=
  ⟨rfl, claim_C10_batch_nonempty (fun x => x) svdTriple (NewEngine 1 2) ⟨0, [1, 0], 0⟩ _ rfl⟩

/-- The candidate list the source builds is the spec enumeration: the skip
condition of the source loop is the complement of the spec keep condition,
and the inner distinctness guards agree. -/
theorem genCandidates_eq_specCandidates (mexp : ℚ → ℚ) (p : Engine) (f : Int) :
    genCandidates mexp p f = specCandidates mexp p f := by
  unfold genCandidates specCandidates
  apply congrArg (List.flatMap (List.range p.X.rows))
  funext u
  by_cases hf : f < 0 ∨ f = (u : Int)
  · have hneg : ¬(0 ≤ f ∧ f ≠ (u : Int)) := by
      rcases hf with hf | hf
      · intro hcon; omega
      · intro hcon; exact hcon.2 hf
    rw [if_neg hneg, if_pos hf]
    apply congrArg (List.flatMap (List.range p.X.cols))
    funext a
    apply congrArg (fun fn => List.filterMap fn (List.range p.X.cols))
    funext b
    by_cases hab : a = b
    · rw [if_pos hab, if_neg (by omega)]
    · rw [if_neg hab, if_pos hab]
  · have hpos : 0 ≤ f ∧ f ≠ (u : Int) := by
      push_neg at hf
      exact ⟨by omega, hf.2⟩
    rw [if_pos hpos, if_neg hf]

/-- The subtracting walk of the source is the accumulating cumulative-weight
selection of the spec, composed with the spec ordering step. -/
theorem walk_eq_specFirstExceed (X : GArray) (thr : ℚ) :
    ∀ (l : List Query) (acc : ℚ),
      walk X (thr - acc) l = (specFirstExceed thr acc l).map (specOrder X) := by
  intro l
  induction l with
  | nil => intro acc; rfl
  | cons q t ih =>
    intro acc
    simp only [walk, specFirstExceed]
    by_cases hlt : thr - acc < q.weight
    · have hcond : thr < acc + q.weight := by linarith
      rw [if_pos hlt, if_pos hcond, Option.map_some']
      rfl
    · have hcond : ¬(thr < acc + q.weight) := fun hcon => hlt (by linarith)
      rw [if_neg hlt, if_neg hcond]
      have harith : thr - acc - q.weight = thr - (acc + q.weight) := by ring
      rw [harith, ih (acc + q.weight)]

/-- Whatever the walk returns is the spec ordering of one of the walked
candidates. -/
theorem walk_mem (X : GArray) :
    ∀ (l : List Query) (off : ℚ) (q : Query),
      walk X off l = some q → ∃ c ∈ l, q = specOrder X c := by
  intro l
  induction l with
  | nil => intro off q h; exact absurd h (by simp [walk])
  | cons c t ih =>
    intro off q h
    simp only [walk] at h
    by_cases hlt : off < c.weight
    · rw [if_pos hlt] at h
      exact ⟨c, by simp, (Option.some.inj h).symm⟩
    · rw [if_neg hlt] at h
      obtain ⟨c2, hc2, hq⟩ := ih (off - c.weight) q h
      exact ⟨c2, by simp [hc2], hq⟩

/-- The walk cannot fall off the end while the remaining offset is
non-negative and below the total weight of the remaining candidates. -/
theorem walk_isSome (X : GArray) :
    ∀ (l : List Query) (off : ℚ),
      0 ≤ off → off < (l.map Query.weight).sum → (walk X off l).isSome := by
  intro l
  induction l with
  | nil =>
    intro off h0 hlt
    simp only [List.map_nil, List.sum_nil] at hlt
    linarith
  | cons c t ih =>
    intro off h0 hlt
    simp only [walk]
    by_cases hb : off < c.weight
    · rw [if_pos hb]; rfl
    · rw [if_neg hb]
      push_neg at hb
      apply ih
      · linarith
      · simp only [List.map_cons, List.sum_cons] at hlt
        linarith

/-- Every member of the candidate list of the source comes from an in-range
user kept by the filter and an in-range ordered pair of distinct items, and
carries the uncertainty weight. -/
theorem mem_genCandidates (mexp : ℚ → ℚ) (p : Engine) (f : Int) (c : Query)
    (hc : c ∈ genCandidates mexp p f) :
    ∃ u a b : Nat, u < p.X.rows ∧ a < p.X.cols ∧ b < p.X.cols ∧ a ≠ b ∧
      c.User = (u : Int) ∧ c.Choices = [(a : Int), (b : Int)] ∧
      c.weight = mexp (-|p.X.I (u : Int) (a : Int) - p.X.I (u : Int) (b : Int)| / p.T) ∧
      (0 ≤ f → c.User = f) := by
  unfold genCandidates at hc
  rw [List.mem_flatMap] at hc
  obtain ⟨u, hu, hc⟩ := hc
  rw [List.mem_range] at hu
  by_cases hf : 0 ≤ f ∧ f ≠ (u : Int)
  · rw [if_pos hf] at hc
    exact absurd hc (List.not_mem_nil c)
  · rw [if_neg hf] at hc
    rw [List.mem_flatMap] at hc
    obtain ⟨a, ha, hc⟩ := hc
    rw [List.mem_range] at ha
    rw [List.mem_filterMap] at hc
    obtain ⟨b, hb, hcb⟩ := hc
    rw [List.mem_range] at hb
    by_cases hab : a = b
    · rw [if_pos hab] at hcb
      exact absurd hcb (by simp)
    · rw [if_neg hab] at hcb
      have hcq := Option.some.inj hcb
      push_neg at hf
      refine ⟨u, a, b, hu, ha, hb, hab, ?_, ?_, ?_, ?_⟩
      · rw [← hcq]
      · rw [← hcq]
      · rw [← hcq]
      · intro hf0
        rw [← hcq]
        exact (hf hf0).symm

/-- Every candidate weight is positive when the exponential is, so a
non-empty candidate list has positive total weight. -/
theorem sum_weights_pos (mexp : ℚ → ℚ) (hexp : ∀ x, 0 < mexp x) (p : Engine) (f : Int)
    (hne : genCandidates mexp p f ≠ []) :
    0 < ((genCandidates mexp p f).map Query.weight).sum := by
  have hpos : ∀ c ∈ genCandidates mexp p f, 0 < c.weight := by
    intro c hc
    obtain ⟨u, a, b, _, _, _, _, _, _, hw, _⟩ := mem_genCandidates mexp p f c hc
    rw [hw]
    exact hexp _
  rcases hcase : genCandidates mexp p f with _ | ⟨c, t⟩
  · exact absurd hcase hne
  · rw [hcase] at hpos
    simp only [List.map_cons, List.sum_cons]
    have h0 : 0 < c.weight := hpos c (by simp)
    have h1 : 0 ≤ (t.map Query.weight).sum := by
      apply List.sum_nonneg
      intro x hx
      rw [List.mem_map] at hx
      obtain ⟨c2, hc2, hx⟩ := hx
      rw [← hx]
      exact le_of_lt (hpos c2 (by simp [hc2]))
    linarith

/-- C4 (amended): Generate enumerates exactly the spec candidate list with
the uncertainty weights, and returns the first candidate in enumeration
order whose cumulative weight exceeds r times the total weight, after
applying the spec ordering step (higher-scored item first) to it. -/
theorem claim_C4_generate_weighted_selection (mexp : ℚ → ℚ) (r : ℚ) (p : Engine) (f : Int) :
    genCandidates mexp p f = specCandidates mexp p f ∧
    Generate mexp r p f =
      (specFirstExceed (r * ((specCandidates mexp p f).map Query.weight).sum) 0
        (specCandidates mexp p f)).map (specOrder p.X) := by
  refine ⟨genCandidates_eq_specCandidates mexp p f, ?_⟩
  unfold Generate
  simp only [genCandidates_eq_specCandidates, foldl_add_map Query.weight, zero_add]
  have hw := walk_eq_specFirstExceed p.X
    (r * ((specCandidates mexp p f).map Query.weight).sum) (specCandidates mexp p f) 0
  rw [sub_zero] at hw
  exact hw

/-- Counterexample to C4 as stated: when the selected candidate has the
lower-scored item first, Generate returns it with the items swapped, not
the raw first cumulative-weight candidate. -/
theorem claim_C4_counterexample :
    Generate (fun _ => 1) 0 tilted (-1) ≠
      specFirstExceed (0 * ((specCandidates (fun _ => 1) tilted (-1)).map Query.weight).sum) 0
        (specCandidates (fun _ => 1) tilted (-1)) := by
  have h1 : Generate (fun _ => 1) 0 tilted (-1) = some ⟨0, [1, 0], 1⟩ := by
    unfold Generate
    have hc : genCandidates (fun _ => 1) tilted (-1) =
        [⟨0, [0, 1], 1⟩, ⟨0, [1, 0], 1⟩] := rfl
    rw [hc]
    norm_num [walk, GArray.I, tilted, List.foldl]
  have h2 : specFirstExceed
      (0 * ((specCandidates (fun _ => 1) tilted (-1)).map Query.weight).sum) 0
      (specCandidates (fun _ => 1) tilted (-1)) = some ⟨0, [0, 1], 1⟩ := by
    have hc : specCandidates (fun _ => 1) tilted (-1) =
        [⟨0, [0, 1], 1⟩, ⟨0, [1, 0], 1⟩] := rfl
    rw [hc]
    norm_num [specFirstExceed]
  rw [h1, h2]
  intro hcon
  have h3 := Option.some.inj hcon
  have h4 : ([1, 0] : List Int) = [0, 1] := congrArg Query.Choices h3
  have h5 : (1 : Int) = 0 := congrArg (fun l => l.getD 0 0) h4
  omega

/-- C6: every Query returned by Generate has its items ordered so the
currently-higher-scored item comes first: Current[user][items[0]] is at
least Current[user][items[1]]. -/
theorem claim_C6_generate_ordering (mexp : ℚ → ℚ) (r : ℚ) (p : Engine) (f : Int) (q : Query)
    (h : Generate mexp r p f = some q) :
    p.X.I q.User (q.Choices.getD 1 0) ≤ p.X.I q.User (q.Choices.getD 0 0) := by
  unfold Generate at h
  obtain ⟨c, hc, hq⟩ := walk_mem p.X _ _ q h
  rw [hq]
  unfold specOrder
  by_cases hlt : p.X.I c.User (c.Choices.getD 0 0) < p.X.I c.User (c.Choices.getD 1 0)
  · rw [if_pos hlt]
    simp only [List.getD_cons_zero, List.getD_cons_succ]
    exact le_of_lt hlt
  · rw [if_neg hlt]
    exact not_lt.mp hlt

/-- Witness for C6 at a concrete engine and draw. -/
theorem claim_C6_witness :
    Generate (fun _ => 1) 0 (NewEngine 1 2) (-1) = some ⟨0, [0, 1], 1⟩ ∧
    (NewEngine 1 2).X.I 0 1 ≤ (NewEngine 1 2).X.I 0 0 := by
  have h : Generate (fun _ => 1) 0 (NewEngine 1 2) (-1) = some ⟨0, [0, 1], 1⟩ := by
    unfold Generate
    have hc : genCandidates (fun _ => 1) (NewEngine 1 2) (-1) =
        [⟨0, [0, 1], 1⟩, ⟨0, [1, 0], 1⟩] := rfl
    rw [hc]
    norm_num [walk, GArray.I, NewEngine, gZero, List.foldl, List.replicate]
  exact ⟨h, claim_C6_generate_ordering (fun _ => 1) 0 (NewEngine 1 2) (-1) ⟨0, [0, 1], 1⟩ h⟩

/-- C7: with positive exponential weights and a uniform draw in [0, 1),
Generate aborts exactly when the candidate set is empty; when at least one
candidate exists every weight is positive and the walk returns a candidate. -/
theorem claim_C7_fatal_iff_no_candidates (mexp : ℚ → ℚ) (r : ℚ) (p : Engine) (f : Int)
    (hexp : ∀ x, 0 < mexp x) (h0 : 0 ≤ r) (h1 : r < 1) :
    (Generate mexp r p f = none ↔ genCandidates mexp p f = []) ∧
    (∀ c ∈ genCandidates mexp p f, 0 < c.weight) := by
  have hw : ∀ c ∈ genCandidates mexp p f, 0 < c.weight := by
    intro c hc
    obtain ⟨u, a, b, _, _, _, _, _, _, hweq, _⟩ := mem_genCandidates mexp p f c hc
    rw [hweq]
    exact hexp _
  refine ⟨⟨?_, ?_⟩, hw⟩
  · intro h
    by_contra hne
    have hpos := sum_weights_pos mexp hexp p f hne
    have hsum : (genCandidates mexp p f).foldl (fun s q => s + q.weight) 0 =
        ((genCandidates mexp p f).map Query.weight).sum := by
      rw [foldl_add_map Query.weight _ 0, zero_add]
    have hnonneg : 0 ≤ r * ((genCandidates mexp p f).map Query.weight).sum :=
      mul_nonneg h0 (le_of_lt hpos)
    have hlt : r * ((genCandidates mexp p f).map Query.weight).sum <
        ((genCandidates mexp p f).map Query.weight).sum := by
      nlinarith
    have hsome := walk_isSome p.X (genCandidates mexp p f) _ hnonneg hlt
    unfold Generate at h
    simp only [hsum] at h
    rw [h] at hsome
    exact absurd hsome (by simp)
  · intro h
    unfold Generate
    rw [h]
    rfl

/-- Witness for C7 at a concrete engine, exponential and draw. -/
theorem claim_C7_witness :
    (∀ x : ℚ, 0 < (fun _ : ℚ => (1 : ℚ)) x) ∧ (0 : ℚ) ≤ 0 ∧ (0 : ℚ) < 1 ∧
    ((Generate (fun _ => 1) 0 (NewEngine 1 2) (-1) = none ↔
        genCandidates (fun _ => 1) (NewEngine 1 2) (-1) = []) ∧
      (∀ c ∈ genCandidates (fun _ => 1) (NewEngine 1 2) (-1), 0 < c.weight)) :=
  ⟨fun x => by norm_num, le_refl 0, by norm_num,
    claim_C7_fatal_iff_no_candidates (fun _ => 1) 0 (NewEngine 1 2) (-1)
      (fun x => by norm_num) (le_refl 0) (by norm_num)⟩

/-- C8: every Query returned by Generate is well formed for the filter: two
distinct items inside [0, items), a user inside [0, users), and exactly the
filtered user when the filter is non-negative. -/
theorem claim_C8_generate_well_formed (mexp : ℚ → ℚ) (r : ℚ) (p : Engine) (f : Int) (q : Query)
    (h : Generate mexp r p f = some q) :
    q.Choices.length = 2 ∧ q.Choices.getD 0 0 ≠ q.Choices.getD 1 0 ∧
    0 ≤ q.Choices.getD 0 0 ∧ q.Choices.getD 0 0 < (p.X.cols : Int) ∧
    0 ≤ q.Choices.getD 1 0 ∧ q.Choices.getD 1 0 < (p.X.cols : Int) ∧
    0 ≤ q.User ∧ q.User < (p.X.rows : Int) ∧ (0 ≤ f → q.User = f) := by
  unfold Generate at h
  obtain ⟨c, hc, hq⟩ := walk_mem p.X _ _ q h
  obtain ⟨u, a, b, hu, ha, hb, hab, hUser, hCh, _, hf⟩ := mem_genCandidates mexp p f c hc
  have hab2 : ((a : Int)) ≠ (b : Int) := by
    intro hcon
    exact hab (by exact_mod_cast hcon)
  rw [hq]
  unfold specOrder
  rw [hUser, hCh]
  by_cases hlt : p.X.I (u : Int) (([(a : Int), (b : Int)] : List Int).getD 0 0) <
      p.X.I (u : Int) (([(a : Int), (b : Int)] : List Int).getD 1 0)
  · rw [if_pos hlt]
    simp only [List.getD_cons_zero, List.getD_cons_succ, List.length_cons, List.length_nil]
    refine ⟨by simp, hab2.symm, by omega, by omega, by omega, by omega, by omega, by omega, ?_⟩
    intro hf0
    rw [← hUser]
    exact hf hf0
  · rw [if_neg hlt, hUser, hCh]
    simp only [List.getD_cons_zero, List.getD_cons_succ, List.length_cons, List.length_nil]
    refine ⟨by simp, hab2, by omega, by omega, by omega, by omega, by omega, by omega, ?_⟩
    intro hf0
    rw [← hUser]
    exact hf hf0

/-- Witness for C8 at a concrete engine with a non-sentinel user filter. -/
theorem claim_C8_witness :
    Generate (fun _ => 1) 0 (NewEngine 1 2) 0 = some ⟨0, [0, 1], 1⟩ ∧
    ((⟨0, [0, 1], 1⟩ : Query).Choices.length = 2 ∧
      (⟨0, [0, 1], 1⟩ : Query).Choices.getD 0 0 ≠ (⟨0, [0, 1], 1⟩ : Query).Choices.getD 1 0 ∧
      0 ≤ (⟨0, [0, 1], 1⟩ : Query).Choices.getD 0 0 ∧
      (⟨0, [0, 1], 1⟩ : Query).Choices.getD 0 0 < ((NewEngine 1 2).X.cols : Int) ∧
      0 ≤ (⟨0, [0, 1], 1⟩ : Query).Choices.getD 1 0 ∧
      (⟨0, [0, 1], 1⟩ : Query).Choices.getD 1 0 < ((NewEngine 1 2).X.cols : Int) ∧
      0 ≤ (⟨0, [0, 1], 1⟩ : Query).User ∧
      (⟨0, [0, 1], 1⟩ : Query).User < ((NewEngine 1 2).X.rows : Int) ∧
      (0 ≤ (0 : Int) → (⟨0, [0, 1], 1⟩ : Query).User = 0)) := by
  have h : Generate (fun _ => 1) 0 (NewEngine 1 2) 0 = some ⟨0, [0, 1], 1⟩ := by
    unfold Generate
    have hc : genCandidates (fun _ => 1) (NewEngine 1 2) 0 =
        [⟨0, [0, 1], 1⟩, ⟨0, [1, 0], 1⟩] := rfl
    rw [hc]
    norm_num [walk, GArray.I, NewEngine, gZero, List.foldl, List.replicate]
  exact ⟨h, claim_C8_generate_well_formed (fun _ => 1) 0 (NewEngine 1 2) 0 ⟨0, [0, 1], 1⟩ h⟩

/-- C9: Generate reads but never writes the engine: folding any sequence of
Generate calls over the state leaves every field exactly as it began. -/
theorem claim_C9_generate_never_mutates (mexp : ℚ → ℚ) (p : Engine) (calls : List (Int × ℚ)) :
    calls.foldl (fun st c => (GenerateS mexp c.2 st c.1).1) p = p ∧
    (calls.foldl (fun st c => (GenerateS mexp c.2 st c.1).1) p).X = p.X ∧
    (calls.foldl (fun st c => (GenerateS mexp c.2 st c.1).1) p).Xp = p.Xp ∧
    (calls.foldl (fun st c => (GenerateS mexp c.2 st c.1).1) p).Z = p.Z ∧
    (calls.foldl (fun st c => (GenerateS mexp c.2 st c.1).1) p).History = p.History ∧
    (calls.foldl (fun st c => (GenerateS mexp c.2 st c.1).1) p).Nu = p.Nu ∧
    (calls.foldl (fun st c => (GenerateS mexp c.2 st c.1).1) p).Alpha = p.Alpha ∧
    (calls.foldl (fun st c => (GenerateS mexp c.2 st c.1).1) p).Lambda = p.Lambda ∧
    (calls.foldl (fun st c => (GenerateS mexp c.2 st c.1).1) p).T = p.T := by
  have hfold : ∀ (l : List (Int × ℚ)) (e : Engine),
      l.foldl (fun st c => (GenerateS mexp c.2 st c.1).1) e = e := by
    intro l
    induction l with
    | nil => intro e; rfl
    | cons c t ih => intro e; exact ih e
  rw [hfold]
  exact ⟨rfl, rfl, rfl, rfl, rfl, rfl, rfl, rfl, rfl⟩
